import Mathlib

/-!
Shallow embedding of `src/auto_commit.py` (auto-commit watcher for Go files)
and proofs about it.

The program is a polling loop over a git working tree.  Its pieces are:
  - `analyze_file` (lines 14-64): pure keyword scan of file text;
  - `commit_changes` (lines 67-114): stage, diff-check, read, commit, push,
    wrapped in one try/except;
  - `get_go_files` (lines 117-124): glob of `*.go` and `**/*.go` under a root;
  - `main` (lines 127-195): CLI handling, startup checks, and the watch loop.

Python strings are embedded as Lean `String` (substring tests run on the
character list), subprocess and filesystem effects as explicit environment
records, and the `file_mtimes` dict as a function `String -> Option Nat`
(its iteration order is never observed by the program).
-/

namespace AutoCommit

/-- Contiguous containment of one character list in another: `needle` occurs
as a block starting at some position of `hay`. -/
def pyInAux (needle : List Char) : List Char → Bool
  | [] => needle.isEmpty
  | c :: rest => List.isPrefixOf needle (c :: rest) || pyInAux needle rest

/-- Python substring test `needle in hay` on strings. -/
def pyIn (needle hay : String) : Bool :=
  pyInAux needle.data hay.data

/-- One `if cond: features.append(label)` step of `analyze_file`. -/
def addIf (b : Bool) (label : String) (features : List String) : List String :=
  if b then features ++ [label] else features

/-- Embedding of `analyze_file` (src/auto_commit.py lines 14-64): the fixed
checklist of substring tests, in source order.  The `file_name` parameter is
bound by the Python function but never used in its body. -/
def analyze_file (content file_name : String) : List String :=
  let features : List String := []
  let features := addIf (pyIn "import (" content) "imports" features
  let features := addIf (pyIn "package main" content) "main package" features
  let features := addIf (pyIn "func " content) "functions" features
  let features := addIf (pyIn "struct \x7b" content || pyIn "type " content) "types" features
  let features := addIf (pyIn "interface \x7b" content) "interface" features
  let features := addIf (pyIn "goroutine" content || pyIn "go func" content || pyIn "go " content) "goroutines" features
  let features := addIf (pyIn "chan " content || pyIn "channel" content) "channels" features
  let features := addIf (pyIn "defer " content) "defer" features
  let features := addIf (pyIn "\"fmt\"" content) "fmt" features
  let features := addIf (pyIn "\"net/http\"" content) "http" features
  let features := addIf (pyIn "\"encoding/json\"" content) "json" features
  let features := addIf (pyIn "\"io\"" content || pyIn "\"io/" content) "io" features
  let features := addIf (pyIn "\"os\"" content) "os" features
  let features := addIf (pyIn "\"sync\"" content) "sync" features
  let features := addIf (pyIn "make(map" content || pyIn "map[" content) "map" features
  let features := addIf (pyIn "make([]" content || pyIn "[]" content) "slice" features
  let features := addIf (pyIn "append(" content) "append" features
  let features := addIf (pyIn "if err != nil" content) "error handling" features
  features

/-- The fixed checklist of feature labels, in the order the source appends
them. -/
def go_feature_checklist : List String :=
  ["imports", "main package", "functions", "types", "interface", "goroutines",
   "channels", "defer", "fmt", "http", "json", "io", "os", "sync", "map",
   "slice", "append", "error handling"]

/-- Python `s.split(chr(10))` on the character list: split at every newline,
keeping empty segments.  `pySplitNl []` is `[[]]` just as `"".split("\n")`
is `[""]`. -/
def pySplitNl : List Char → List (List Char)
  | [] => [[]]
  | c :: rest =>
    match pySplitNl rest with
    | [] => [[]]
    | s :: ss => if c = '\n' then [] :: s :: ss else (c :: s) :: ss

/-- Python `os.path.basename` for POSIX paths: everything after the last
slash. -/
def basename (p : String) : String :=
  ⟨((p.data.reverse.takeWhile (fun c => c ≠ '/')).reverse)⟩

/-- Index of the last dot of a character list, if any. -/
def rfindDot (cs : List Char) : Option Nat :=
  ((List.range cs.length).filter (fun i => cs.getD i ' ' == '.')).getLast?

/-- Python `os.path.splitext(name)[0]` for a bare file name (no separators):
drop the extension beginning at the last dot, except that a run of leading
dots never begins an extension. -/
def splitextFst (name : String) : String :=
  let cs := name.data
  match rfindDot cs with
  | none => name
  | some i => if (cs.take i).any (fun c => c ≠ '.') then ⟨cs.take i⟩ else name

/-- The commit message built by `commit_changes` (src/auto_commit.py lines
86-90): `Update <splitext(basename)>: <up to 3 comma-joined labels, or
"code update" when the analyzer found none> (<len(content.split(chr(10)))>
lines)`. -/
def commitMessage (file_path content : String) : String :=
  let file_name := basename file_path
  let features := analyze_file content file_name
  let feature_str := if features.isEmpty then "code update"
                     else String.intercalate ", " (features.take 3)
  let base_name := splitextFst file_name
  "Update " ++ base_name ++ ": " ++ feature_str ++ " (" ++
    toString (pySplitNl content.data).length ++ " lines)"

/-- Number of lines of a text, as the spec words read: maximal newline-free
segments, where a trailing newline terminates the last line rather than
starting an empty one, and empty text has zero lines. -/
def specNumLines (c : String) : Nat :=
  c.data.count '\n' +
    (if c.data ≠ [] ∧ c.data.getLast? ≠ some '\n' then 1 else 0)

/-- Exit status of a completed subprocess (`subprocess.run` returned a
`CompletedProcess`). -/
structure ProcResult where
  returncode : Int
deriving DecidableEq

/-- Environment of one `commit_changes` call: the outcome of each external
step, in program order.  `Except.error e` models the step raising a Python
`Exception` (for the subprocess steps this includes `TimeoutExpired`; for the
read step, `OSError` or `UnicodeDecodeError`); `Except.ok` models normal
completion. -/
structure CommitEnv where
  file_path : String
  addOutcome : Except String ProcResult
  diffOutcome : Except String ProcResult
  readOutcome : Except String String
  commitOutcome : Except String ProcResult
  pushOutcome : Except String ProcResult

/-- Body of the `try:` block of `commit_changes` (src/auto_commit.py lines
69-110): returns the lines printed so far paired with either the returned
Bool or the exception that escaped the block.  The stage result is ignored
by the source; the diff-check decides whether to commit; commit exit 0
prints the success line and attempts the push, whose exit code only selects
which line to print. -/
def commit_changes_try (env : CommitEnv) : List String × Except String Bool :=
  match env.addOutcome with
  | .error e => ([], .error e)
  | .ok _ =>
    match env.diffOutcome with
    | .error e => ([], .error e)
    | .ok result =>
      if result.returncode ≠ 0 then
        match env.readOutcome with
        | .error e => ([], .error e)
        | .ok content =>
          let msg := commitMessage env.file_path content
          match env.commitOutcome with
          | .error e => ([], .error e)
          | .ok cres =>
            if cres.returncode = 0 then
              match env.pushOutcome with
              | .error e => (["✓ Committed: " ++ msg], .error e)
              | .ok pres =>
                if pres.returncode = 0 then
                  (["✓ Committed: " ++ msg, "  📤 Pushed to GitHub"], .ok true)
                else
                  (["✓ Committed: " ++ msg, "  ⚠️  Push failed (check connection)"], .ok true)
            else ([], .ok false)
      else ([], .ok false)

/-- Embedding of `commit_changes` (src/auto_commit.py lines 67-114): the try
block under the `except Exception` handler, which prints the error and falls
through to `return False`. -/
def commit_changes (env : CommitEnv) : List String × Bool :=
  match commit_changes_try env with
  | (prints, .ok b) => (prints, b)
  | (prints, .error e) => (prints ++ ["Error: " ++ e], false)

/-! ### Lemmas about the analyzer and the commit message -/

theorem addIf_sublist {f l : List String} (b : Bool) (x : String)
    (h : List.Sublist f l) : List.Sublist (addIf b x f) (l ++ [x]) := by
  cases b with
  | false =>
    simpa only [addIf, if_neg] using h.trans (List.sublist_append_left l [x])
  | true =>
    simpa only [addIf, if_pos] using List.Sublist.append h (List.Sublist.refl [x])

theorem pySplitNl_ne_nil (l : List Char) : pySplitNl l ≠ [] := by
  cases l with
  | nil => simp [pySplitNl]
  | cons c rest =>
    simp only [pySplitNl]
    cases h : pySplitNl rest with
    | nil => simp
    | cons s ss =>
      by_cases hc : c = '\n' <;> simp [hc]

theorem pySplitNl_length (l : List Char) :
    (pySplitNl l).length = l.count '\n' + 1 := by
  induction l with
  | nil => simp [pySplitNl]
  | cons c rest ih =>
    simp only [pySplitNl]
    cases h : pySplitNl rest with
    | nil => exact absurd h (pySplitNl_ne_nil rest)
    | cons s ss =>
      rw [h] at ih
      simp only [List.length_cons] at ih
      by_cases hc : c = '\n'
      · subst hc
        simp [List.count_cons]
        omega
      · simp [hc, List.count_cons]
        omega

/-- Claim C7: for all file texts and file names, the label list returned by
`analyze_file` is a sublist of the fixed checklist (so it preserves checklist
order), has no duplicates, and never exceeds the checklist length. -/
theorem c7_analyzer_sublist (content file_name : String) :
    List.Sublist (analyze_file content file_name) go_feature_checklist ∧
    (analyze_file content file_name).Nodup ∧
    (analyze_file content file_name).length ≤ go_feature_checklist.length := by
  have hsub : List.Sublist (analyze_file content file_name) go_feature_checklist := by
    have h0 : List.Sublist ([] : List String) [] := List.Sublist.refl []
    have h1 := addIf_sublist (pyIn "import (" content) "imports" h0
    have h2 := addIf_sublist (pyIn "package main" content) "main package" h1
    have h3 := addIf_sublist (pyIn "func " content) "functions" h2
    have h4 := addIf_sublist (pyIn "struct \x7b" content || pyIn "type " content) "types" h3
    have h5 := addIf_sublist (pyIn "interface \x7b" content) "interface" h4
    have h6 := addIf_sublist (pyIn "goroutine" content || pyIn "go func" content || pyIn "go " content) "goroutines" h5
    have h7 := addIf_sublist (pyIn "chan " content || pyIn "channel" content) "channels" h6
    have h8 := addIf_sublist (pyIn "defer " content) "defer" h7
    have h9 := addIf_sublist (pyIn "\"fmt\"" content) "fmt" h8
    have h10 := addIf_sublist (pyIn "\"net/http\"" content) "http" h9
    have h11 := addIf_sublist (pyIn "\"encoding/json\"" content) "json" h10
    have h12 := addIf_sublist (pyIn "\"io\"" content || pyIn "\"io/" content) "io" h11
    have h13 := addIf_sublist (pyIn "\"os\"" content) "os" h12
    have h14 := addIf_sublist (pyIn "\"sync\"" content) "sync" h13
    have h15 := addIf_sublist (pyIn "make(map" content || pyIn "map[" content) "map" h14
    have h16 := addIf_sublist (pyIn "make([]" content || pyIn "[]" content) "slice" h15
    have h17 := addIf_sublist (pyIn "append(" content) "append" h16
    have h18 := addIf_sublist (pyIn "if err != nil" content) "error handling" h17
    exact h18
  have hnd : go_feature_checklist.Nodup := by decide
  exact ⟨hsub, hnd.sublist hsub, hsub.length_le⟩

/-- Claim C10: the file name argument has no influence on the analyzer
result; `analyze_file` depends on the content alone. -/
theorem c10_filename_noninterference (content n1 n2 : String) :
    analyze_file content n1 = analyze_file content n2 := rfl

/-- Claim C5, counterexample: on the one-line content `"package main\n"` the
message reports 2 lines, while the number of lines of that content is 1; so
the line count in the message is not the number of lines of the content. -/
theorem c5_counterexample :
    commitMessage "main.go" "package main\n" = "Update main: main package (2 lines)" ∧
    specNumLines "package main\n" = 1 := by
  exact ⟨rfl, rfl⟩

/-- Claim C5 as amended: the commit message has exactly the form
`Update <basename-without-extension>: <up to 3 comma-joined feature labels,
or "code update" if the Analyzer returned none> (<N> lines)` where the
feature labels are the first three returned by the Analyzer and `N` is one
more than the number of newline characters of the content (so `N` equals the
number of lines only when the content is nonempty and does not end in a
newline). -/
theorem c5_message_format (file_path content : String) :
    commitMessage file_path content =
      "Update " ++ splitextFst (basename file_path) ++ ": " ++
        (if analyze_file content (basename file_path) = [] then "code update"
         else String.intercalate ", " ((analyze_file content (basename file_path)).take 3)) ++
        " (" ++ toString (content.data.count '\n' + 1) ++ " lines)" := by
  simp only [commitMessage, pySplitNl_length]
  cases h : analyze_file content (basename file_path) with
  | nil => simp [h]
  | cons a as => simp [h]

/-! ### The Committer: push handling and the exception policy -/

/-- Every step completes and the commit exits 0, but the push raises, as
`git push` does when it exceeds its 10 second timeout. -/
def envPushRaises : CommitEnv :=
  ⟨"main.go", .ok ⟨0⟩, .ok ⟨1⟩, .ok "package main\n", .ok ⟨0⟩, .error "TimeoutExpired"⟩

/-- Every step completes, the commit exits 0 and the push completes with
exit code 1. -/
def envPushFails : CommitEnv :=
  ⟨"main.go", .ok ⟨0⟩, .ok ⟨1⟩, .ok "x", .ok ⟨0⟩, .ok ⟨1⟩⟩

/-- The stage step raises (its 5 second timeout expires) before anything is
printed. -/
def envAddRaises : CommitEnv :=
  ⟨"main.go", .error "TimeoutExpired", .ok ⟨1⟩, .ok "x", .ok ⟨0⟩, .ok ⟨0⟩⟩

/-- Claim C3, counterexample: a run in which staging, diff check and read
complete, the commit subprocess succeeds (exit 0), yet `commit_changes`
returns False, because the push raised an exception which the broad handler
caught.  This refutes: commit success implies True regardless of the push
outcome. -/
theorem c3_counterexample :
    envPushRaises.addOutcome = .ok ⟨0⟩ ∧
    envPushRaises.diffOutcome = .ok ⟨1⟩ ∧
    envPushRaises.readOutcome = .ok "package main\n" ∧
    envPushRaises.commitOutcome = .ok ⟨0⟩ ∧
    (commit_changes envPushRaises).2 = false :=
  ⟨rfl, rfl, rfl, rfl, rfl⟩

/-- Claim C3 as amended: if the commit step succeeds and the push subprocess
completes (returns any exit code rather than raising), `commit_changes`
returns True, and a non-zero push exit is only logged; but if the push
raises — for example on exceeding its 10 second timeout — the exception is
caught and the function returns False, even though the commit is never
rolled back or retried. -/
theorem c3_commit_success_reported (env : CommitEnv)
    (ares dres cres pres : ProcResult) (content : String)
    (h1 : env.addOutcome = .ok ares) (h2 : env.diffOutcome = .ok dres)
    (h3 : dres.returncode ≠ 0) (h4 : env.readOutcome = .ok content)
    (h5 : env.commitOutcome = .ok cres) (h6 : cres.returncode = 0)
    (h7 : env.pushOutcome = .ok pres) :
    (commit_changes env).2 = true ∧
    (pres.returncode ≠ 0 →
      "  ⚠️  Push failed (check connection)" ∈ (commit_changes env).1) := by
  by_cases hp : pres.returncode = 0
  · simp [commit_changes, commit_changes_try, h1, h2, h3, h4, h5, h6, h7, hp]
  · simp [commit_changes, commit_changes_try, h1, h2, h3, h4, h5, h6, h7, hp]

theorem c3_witness :
    (commit_changes envPushFails).2 = true ∧
    "  ⚠️  Push failed (check connection)" ∈ (commit_changes envPushFails).1 := by
  have h := c3_commit_success_reported envPushFails ⟨0⟩ ⟨1⟩ ⟨0⟩ ⟨1⟩ "x"
    rfl rfl (by decide) rfl rfl rfl rfl
  exact ⟨h.1, h.2 (by decide)⟩

/-- Claim C4: whenever any step of the stage/check/read/commit/push sequence
raises, the exception is caught inside `commit_changes`, an error line is
printed, and the function returns False; `commit_changes` is a total
function, so no exception escapes to the watch loop. -/
theorem c4_exceptions_caught (env : CommitEnv) (e : String)
    (h : (commit_changes_try env).2 = .error e) :
    (commit_changes env).2 = false ∧ ("Error: " ++ e) ∈ (commit_changes env).1 := by
  rcases hq : commit_changes_try env with ⟨prints, r⟩
  rw [hq] at h
  simp only at h
  subst h
  simp [commit_changes, hq]

theorem c4_witness :
    (commit_changes envAddRaises).2 = false ∧
    ("Error: " ++ "TimeoutExpired") ∈ (commit_changes envAddRaises).1 :=
  c4_exceptions_caught envAddRaises "TimeoutExpired" rfl

/-! ### The File Scanner

A root directory is modelled as the list of files beneath it, each file as
its path relative to the root, a nonempty list of name components whose last
component is the file name.  `str(f)` prefixes every result with the same
absolute root, so multiplicities in the returned list are unaffected by the
prefixing and we reason on the relative component paths.  Only files are
modelled, which absorbs the `f.is_file()` filter of the source. -/

/-- `fnmatch` of the fixed pattern `*.go` against one name component: `*`
matches any (possibly empty) sequence, so a name matches exactly when it
ends in `.go`.  (`pathlib` does not exempt dot-files.) -/
def matchesStarGo (name : String) : Bool :=
  List.isSuffixOf ".go".data name.data

/-- `Path(repo_path).glob('*.go')`: matching files directly in the root,
that is, paths of a single component. -/
def globStarGo (fs : List (List String)) : List (List String) :=
  fs.filter (fun p => p.length == 1 && matchesStarGo (p.getLastD ""))

/-- `Path(repo_path).glob('**/*.go')`: `**` matches zero or more directory
components, so this is every matching file at any depth, the root included. -/
def globRecGo (fs : List (List String)) : List (List String) :=
  fs.filter (fun p => matchesStarGo (p.getLastD ""))

/-- Embedding of `get_go_files` (src/auto_commit.py lines 117-124): the
results of the direct glob followed by the results of the recursive glob. -/
def get_go_files (fs : List (List String)) : List (List String) :=
  globStarGo fs ++ globRecGo fs

theorem count_filter_of_nodup (fs : List (List String)) (h : fs.Nodup)
    (pred : List String → Bool) (p : List String) :
    (fs.filter pred).count p = if p ∈ fs ∧ pred p = true then 1 else 0 := by
  induction fs with
  | nil => simp
  | cons q rest ih =>
    obtain ⟨hq_notin, hrest⟩ := List.nodup_cons.mp h
    have ih := ih hrest
    by_cases hpq : p = q
    · subst hpq
      have hnotin : p ∉ rest := hq_notin
      by_cases hpred : pred p = true
      · simp [List.filter_cons, hpred, List.count_cons, ih, hnotin]
      · simp [List.filter_cons, hpred, ih, hnotin]
    · by_cases hpred : pred q = true
      · simp [List.filter_cons, hpred, List.count_cons, ih, hpq]
      · simp [List.filter_cons, hpred, ih, hpq]

/-- Claim C1, counterexample: a root containing the single file `a.go`
directly in the root; `get_go_files` returns that path twice, not exactly
once, because the direct glob and the recursive glob both match it. -/
theorem c1_counterexample :
    (get_go_files [["a.go"]]).count ["a.go"] = 2 := by decide

/-- Claim C1 as amended: for a root whose file list has no duplicate paths,
`get_go_files` returns exactly the files whose name ends in `.go`, with
every matching file directly in the root occurring exactly twice in the
returned list (matched by both glob patterns) and every matching file
strictly beneath the root exactly once; non-matching paths do not occur. -/
theorem c1_go_files_count (fs : List (List String)) (h : fs.Nodup)
    (p : List String) :
    (get_go_files fs).count p =
      if p ∈ fs ∧ matchesStarGo (p.getLastD "") = true then
        (if p.length = 1 then 2 else 1)
      else 0 := by
  rw [get_go_files, globStarGo, globRecGo, List.count_append,
    count_filter_of_nodup fs h _ p, count_filter_of_nodup fs h _ p]
  simp only [List.getLastD_eq_getLast?, Bool.and_eq_true, beq_iff_eq]
  by_cases hmem : p ∈ fs <;>
    by_cases hmat : matchesStarGo (p.getLast?.getD "") = true <;>
      by_cases hl : p.length = 1 <;>
        simp [hmem, hmat, hl]

theorem c1_witness :
    (get_go_files [["a.go"], ["sub", "b.go"]]).count ["sub", "b.go"] = 1 := by
  rw [c1_go_files_count [["a.go"], ["sub", "b.go"]] (by decide) ["sub", "b.go"]]
  decide

/-! ### The Watch Loop

The `file_mtimes` dict maps a path to the last observed mtime; the program
never iterates over the dict, so it is embedded as a function
`String -> Option Nat` (`none` = key absent).  Real mtimes are numeric and
nonnegative; the source uses `0` both as the sentinel for a newly discovered
file and as the fallback of `.get(f, 0)`.  One poll cycle observes a fixed
snapshot of the filesystem: the scanned file list (which may repeat paths,
as `get_go_files` does for files directly in the root) and the mtime read
for each path, with `none` modelling `os.path.getmtime` raising `OSError`. -/

/-- The tracked-file mapping of the watch loop. -/
def Mtimes : Type := String → Option Nat

/-- `file_mtimes.get(k, 0)`. -/
def mtGet (d : Mtimes) (k : String) : Nat := (d k).getD 0

/-- `k in file_mtimes`. -/
def mtHas (d : Mtimes) (k : String) : Bool := (d k).isSome

/-- `file_mtimes[k] = v`. -/
def mtSet (d : Mtimes) (k : String) (v : Nat) : Mtimes :=
  fun q => if q = k then some v else d q

/-- Observable actions of one poll cycle: the discovery notice printed for a
new path, and an invocation of the Committer (`commit_changes`) for a
changed path. -/
inductive Event where
  | discovered (path : String)
  | commitCall (path : String)
deriving DecidableEq

/-- Filesystem snapshot seen by one poll cycle. -/
structure CycleFS where
  goFiles : List String
  mtime : String → Option Nat

/-- First pass of the loop body (src/auto_commit.py lines 172-176): any
scanned path not yet tracked is printed as newly detected and recorded with
the sentinel timestamp 0. -/
def newFilePass : List String → Mtimes → Mtimes × List Event
  | [], d => (d, [])
  | f :: rest, d =>
    if mtHas d f then newFilePass rest d
    else
      ((newFilePass rest (mtSet d f 0)).1,
        Event.discovered f :: (newFilePass rest (mtSet d f 0)).2)

/-- Second pass of the loop body (src/auto_commit.py lines 178-191): read
each scanned path's mtime (`none` = `OSError`, skipped); if it exceeds the
tracked value, update the tracked value first, and invoke the Committer only
when the previous value was a real (positive) timestamp. -/
def modPass (mt : String → Option Nat) : List String → Mtimes → Mtimes × List Event
  | [], d => (d, [])
  | f :: rest, d =>
    match mt f with
    | none => modPass mt rest d
    | some m =>
      if mtGet d f < m then
        if 0 < mtGet d f then
          ((modPass mt rest (mtSet d f m)).1,
            Event.commitCall f :: (modPass mt rest (mtSet d f m)).2)
        else modPass mt rest (mtSet d f m)
      else modPass mt rest d

/-- One full poll cycle (src/auto_commit.py lines 169-191): the new-file
pass followed by the modification pass, both over the same scan. -/
def pollCycle (fs : CycleFS) (d : Mtimes) : Mtimes × List Event :=
  ((modPass fs.mtime fs.goFiles (newFilePass fs.goFiles d).1).1,
    (newFilePass fs.goFiles d).2 ++
      (modPass fs.mtime fs.goFiles (newFilePass fs.goFiles d).1).2)

/-! ### Watch loop lemmas -/

theorem mtGet_mtSet_self (d : Mtimes) (k : String) (v : Nat) :
    mtGet (mtSet d k v) k = v := by simp [mtGet, mtSet]

theorem mtGet_mtSet_other (d : Mtimes) (k q : String) (v : Nat) (h : q ≠ k) :
    mtGet (mtSet d k v) q = mtGet d q := by simp [mtGet, mtSet, h]

theorem mtHas_mtSet_self (d : Mtimes) (k : String) (v : Nat) :
    mtHas (mtSet d k v) k = true := by simp [mtHas, mtSet]

theorem mtHas_mtSet_other (d : Mtimes) (k q : String) (v : Nat) (h : q ≠ k) :
    mtHas (mtSet d k v) q = mtHas d q := by simp [mtHas, mtSet, h]

theorem modPass_cons_none (mt : String → Option Nat) (l : List String)
    (d : Mtimes) (g : String) (h : mt g = none) :
    modPass mt (g :: l) d = modPass mt l d := by
  simp [modPass, h]

theorem modPass_cons_some (mt : String → Option Nat) (l : List String)
    (d : Mtimes) (g : String) (m : Nat) (h : mt g = some m) :
    modPass mt (g :: l) d =
      if mtGet d g < m then
        if 0 < mtGet d g then
          ((modPass mt l (mtSet d g m)).1,
            Event.commitCall g :: (modPass mt l (mtSet d g m)).2)
        else modPass mt l (mtSet d g m)
      else modPass mt l d := by
  simp [modPass, h]

theorem newFilePass_apply (l : List String) :
    ∀ (d : Mtimes) (k : String),
      (newFilePass l d).1 k =
        if mtHas d k = false ∧ k ∈ l then some 0 else d k := by
  induction l with
  | nil => intro d k; simp [newFilePass]
  | cons g rest ih =>
    intro d k
    simp only [newFilePass]
    by_cases hg : mtHas d g = true
    · rw [if_pos hg, ih]
      by_cases hk : k = g
      · subst hk; simp [hg]
      · simp [hk]
    · rw [if_neg hg]
      simp only [Bool.not_eq_true] at hg
      show (newFilePass rest (mtSet d g 0)).1 k = _
      rw [ih]
      by_cases hk : k = g
      · subst hk
        simp [mtHas_mtSet_self, mtSet, hg]
      · simp [mtHas_mtSet_other d g k 0 hk, hk, mtSet]

theorem newFilePass_events_discovered (l : List String) :
    ∀ (d : Mtimes), ∀ e ∈ (newFilePass l d).2, ∃ g, e = Event.discovered g := by
  induction l with
  | nil => intro d; simp [newFilePass]
  | cons g rest ih =>
    intro d
    simp only [newFilePass]
    by_cases hg : mtHas d g = true
    · rw [if_pos hg]; exact ih d
    · rw [if_neg hg]
      intro e he
      rcases List.mem_cons.mp he with he | he
      · exact ⟨g, he⟩
      · exact ih _ e he

theorem newFilePass_discovers (f : String) (l : List String) :
    ∀ (d : Mtimes), f ∈ l → mtHas d f = false →
      Event.discovered f ∈ (newFilePass l d).2 := by
  induction l with
  | nil => intro d hf; cases hf
  | cons g rest ih =>
    intro d hf hnew
    simp only [newFilePass]
    by_cases hfg : f = g
    · subst hfg
      rw [if_neg (by simp [hnew])]
      exact List.mem_cons_self _ _
    · have hf' : f ∈ rest := by
        rcases List.mem_cons.mp hf with h | h
        · exact absurd h hfg
        · exact h
      by_cases hg : mtHas d g = true
      · rw [if_pos hg]; exact ih d hf' hnew
      · rw [if_neg hg]
        have hnew' : mtHas (mtSet d g 0) f = false := by
          rw [mtHas_mtSet_other d g f 0 hfg]; exact hnew
        exact List.mem_cons_of_mem _ (ih (mtSet d g 0) hf' hnew')

theorem modPass_get_mono (mt : String → Option Nat) (l : List String) :
    ∀ (d : Mtimes) (k : String), mtGet d k ≤ mtGet (modPass mt l d).1 k := by
  induction l with
  | nil => intro d k; simp [modPass]
  | cons g rest ih =>
    intro d k
    cases hmt : mt g with
    | none => rw [modPass_cons_none mt rest d g hmt]; exact ih d k
    | some m =>
      rw [modPass_cons_some mt rest d g m hmt]
      by_cases hlt : mtGet d g < m
      · rw [if_pos hlt]
        have hstep : mtGet d k ≤ mtGet (mtSet d g m) k := by
          by_cases hk : k = g
          · subst hk; rw [mtGet_mtSet_self]; exact le_of_lt hlt
          · rw [mtGet_mtSet_other d g k m hk]
        by_cases hpos : 0 < mtGet d g
        · rw [if_pos hpos]
          exact le_trans hstep (ih (mtSet d g m) k)
        · rw [if_neg hpos]
          exact le_trans hstep (ih (mtSet d g m) k)
      · rw [if_neg hlt]; exact ih d k

theorem modPass_has_mono (mt : String → Option Nat) (l : List String) :
    ∀ (d : Mtimes) (k : String), mtHas d k = true →
      mtHas (modPass mt l d).1 k = true := by
  induction l with
  | nil => intro d k h; simpa [modPass] using h
  | cons g rest ih =>
    intro d k h
    cases hmt : mt g with
    | none => rw [modPass_cons_none mt rest d g hmt]; exact ih d k h
    | some m =>
      rw [modPass_cons_some mt rest d g m hmt]
      by_cases hlt : mtGet d g < m
      · rw [if_pos hlt]
        have hstep : mtHas (mtSet d g m) k = true := by
          by_cases hk : k = g
          · subst hk; exact mtHas_mtSet_self d k m
          · rw [mtHas_mtSet_other d g k m hk]; exact h
        by_cases hpos : 0 < mtGet d g
        · rw [if_pos hpos]; exact ih (mtSet d g m) k hstep
        · rw [if_neg hpos]; exact ih (mtSet d g m) k hstep
      · rw [if_neg hlt]; exact ih d k h

theorem modPass_no_commit_none (mt : String → Option Nat) (f : String)
    (hmt : mt f = none) (l : List String) :
    ∀ (d : Mtimes), Event.commitCall f ∉ (modPass mt l d).2 := by
  induction l with
  | nil => intro d; simp [modPass]
  | cons g rest ih =>
    intro d
    cases hg : mt g with
    | none => rw [modPass_cons_none mt rest d g hg]; exact ih d
    | some m =>
      have hfg : f ≠ g := by
        intro he; rw [he, hg] at hmt; cases hmt
      rw [modPass_cons_some mt rest d g m hg]
      by_cases hlt : mtGet d g < m
      · rw [if_pos hlt]
        by_cases hpos : 0 < mtGet d g
        · rw [if_pos hpos]
          intro hmem
          rcases List.mem_cons.mp hmem with hb | hb
          · exact hfg (by injection hb)
          · exact ih (mtSet d g m) hb
        · rw [if_neg hpos]; exact ih (mtSet d g m)
      · rw [if_neg hlt]; exact ih d

theorem modPass_no_commit (mt : String → Option Nat) (f : String) (m : Nat)
    (hmt : mt f = some m) (l : List String) :
    ∀ (d : Mtimes), (mtGet d f = 0 ∨ m ≤ mtGet d f) →
      Event.commitCall f ∉ (modPass mt l d).2 := by
  induction l with
  | nil => intro d _; simp [modPass]
  | cons g rest ih =>
    intro d hinv
    cases hg : mt g with
    | none => rw [modPass_cons_none mt rest d g hg]; exact ih d hinv
    | some m2 =>
      by_cases hfg : f = g
      · subst hfg
        rw [hmt] at hg
        injection hg with hm2
        subst hm2
        rw [modPass_cons_some mt rest d f m hmt]
        by_cases hlt : mtGet d f < m
        · have hz : mtGet d f = 0 := by
            rcases hinv with hz | hle
            · exact hz
            · exact absurd hlt (not_lt.mpr hle)
          rw [if_pos hlt, if_neg (by rw [hz]; exact lt_irrefl 0)]
          exact ih (mtSet d f m) (Or.inr (le_of_eq (mtGet_mtSet_self d f m).symm))
        · rw [if_neg hlt]
          exact ih d hinv
      · have hinv2 : mtGet (mtSet d g m2) f = 0 ∨ m ≤ mtGet (mtSet d g m2) f := by
          rw [mtGet_mtSet_other d g f m2 hfg]
          exact hinv
        rw [modPass_cons_some mt rest d g m2 hg]
        by_cases hlt : mtGet d g < m2
        · rw [if_pos hlt]
          by_cases hpos : 0 < mtGet d g
          · rw [if_pos hpos]
            intro hmem
            rcases List.mem_cons.mp hmem with hb | hb
            · exact hfg (by injection hb)
            · exact ih (mtSet d g m2) hinv2 hb
          · rw [if_neg hpos]; exact ih (mtSet d g m2) hinv2
        · rw [if_neg hlt]; exact ih d hinv

theorem modPass_value_stable (mt : String → Option Nat) (f : String) (m : Nat)
    (hmt : mt f = some m) (l : List String) :
    ∀ (d : Mtimes), mtGet d f = m → mtGet (modPass mt l d).1 f = m := by
  induction l with
  | nil => intro d hv; simpa [modPass] using hv
  | cons g rest ih =>
    intro d hv
    cases hg : mt g with
    | none => rw [modPass_cons_none mt rest d g hg]; exact ih d hv
    | some m2 =>
      by_cases hfg : f = g
      · subst hfg
        rw [hmt] at hg
        injection hg with hm2
        subst hm2
        rw [modPass_cons_some mt rest d f m hmt,
          if_neg (by rw [hv]; exact lt_irrefl m)]
        exact ih d hv
      · have hv2 : mtGet (mtSet d g m2) f = m := by
          rw [mtGet_mtSet_other d g f m2 hfg]; exact hv
        rw [modPass_cons_some mt rest d g m2 hg]
        by_cases hlt : mtGet d g < m2
        · rw [if_pos hlt]
          by_cases hpos : 0 < mtGet d g
          · rw [if_pos hpos]; exact ih (mtSet d g m2) hv2
          · rw [if_neg hpos]; exact ih (mtSet d g m2) hv2
        · rw [if_neg hlt]; exact ih d hv

theorem modPass_value_first (mt : String → Option Nat) (f : String) (m : Nat)
    (hmt : mt f = some m) (l : List String) :
    ∀ (d : Mtimes), f ∈ l → mtGet d f = 0 →
      mtGet (modPass mt l d).1 f = m := by
  induction l with
  | nil => intro d hf; cases hf
  | cons g rest ih =>
    intro d hf hv
    by_cases hfg : f = g
    · subst hfg
      rw [modPass_cons_some mt rest d f m hmt]
      by_cases hm0 : 0 < m
      · rw [if_pos (by rw [hv]; exact hm0), if_neg (by rw [hv]; exact lt_irrefl 0)]
        exact modPass_value_stable mt f m hmt rest (mtSet d f m)
          (mtGet_mtSet_self d f m)
      · have hm : m = 0 := Nat.eq_zero_of_not_pos hm0
        rw [if_neg (by rw [hv, hm]; exact lt_irrefl 0)]
        exact modPass_value_stable mt f m hmt rest d (by rw [hv, hm])
    · have hf' : f ∈ rest := by
        rcases List.mem_cons.mp hf with h | h
        · exact absurd h hfg
        · exact h
      cases hg : mt g with
      | none => rw [modPass_cons_none mt rest d g hg]; exact ih d hf' hv
      | some m2 =>
        have hv2 : mtGet (mtSet d g m2) f = 0 := by
          rw [mtGet_mtSet_other d g f m2 hfg]; exact hv
        rw [modPass_cons_some mt rest d g m2 hg]
        by_cases hlt : mtGet d g < m2
        · rw [if_pos hlt]
          by_cases hpos : 0 < mtGet d g
          · rw [if_pos hpos]; exact ih (mtSet d g m2) hf' hv2
          · rw [if_neg hpos]; exact ih (mtSet d g m2) hf' hv2
        · rw [if_neg hlt]; exact ih d hf' hv

theorem modPass_value_none (mt : String → Option Nat) (f : String)
    (hmt : mt f = none) (l : List String) :
    ∀ (d : Mtimes), (modPass mt l d).1 f = d f := by
  induction l with
  | nil => intro d; simp [modPass]
  | cons g rest ih =>
    intro d
    cases hg : mt g with
    | none => rw [modPass_cons_none mt rest d g hg]; exact ih d
    | some m2 =>
      have hfg : f ≠ g := by
        intro he; rw [he, hg] at hmt; cases hmt
      have hset : (mtSet d g m2) f = d f := by simp [mtSet, hfg]
      rw [modPass_cons_some mt rest d g m2 hg]
      by_cases hlt : mtGet d g < m2
      · rw [if_pos hlt]
        by_cases hpos : 0 < mtGet d g
        · rw [if_pos hpos]; rw [ih (mtSet d g m2)]; exact hset
        · rw [if_neg hpos]; rw [ih (mtSet d g m2)]; exact hset
      · rw [if_neg hlt]; exact ih d

/-! ### Watch loop claims -/

/-- Claim C6: a path scanned in a cycle but not yet tracked is recorded with
the sentinel 0 and a discovery notice is emitted; no Committer invocation
occurs for it in that cycle, and its first observed real timestamp only
updates the tracked value (an unreadable mtime leaves the sentinel 0). -/
theorem c6_new_file_discovery (fs : CycleFS) (d : Mtimes) (f : String)
    (hmem : f ∈ fs.goFiles) (hnew : mtHas d f = false) :
    Event.discovered f ∈ (pollCycle fs d).2 ∧
    Event.commitCall f ∉ (pollCycle fs d).2 ∧
    (∀ m, fs.mtime f = some m → mtGet (pollCycle fs d).1 f = m) ∧
    (fs.mtime f = none → mtGet (pollCycle fs d).1 f = 0) := by
  have hd1 : (newFilePass fs.goFiles d).1 f = some 0 := by
    rw [newFilePass_apply fs.goFiles d f, if_pos ⟨hnew, hmem⟩]
  have hd1get : mtGet (newFilePass fs.goFiles d).1 f = 0 := by
    rw [mtGet, hd1]; rfl
  refine ⟨?_, ?_, ?_, ?_⟩
  · exact List.mem_append_left _ (newFilePass_discovers f fs.goFiles d hmem hnew)
  · intro hmem2
    rcases List.mem_append.mp hmem2 with hb | hb
    · rcases newFilePass_events_discovered fs.goFiles d _ hb with ⟨g, hg⟩
      cases hg
    · cases hmt : fs.mtime f with
      | none => exact modPass_no_commit_none fs.mtime f hmt fs.goFiles _ hb
      | some m =>
        exact modPass_no_commit fs.mtime f m hmt fs.goFiles _ (Or.inl hd1get) hb
  · intro m hmt
    exact modPass_value_first fs.mtime f m hmt fs.goFiles _ hmem hd1get
  · intro hmt
    show mtGet (modPass fs.mtime fs.goFiles (newFilePass fs.goFiles d).1).1 f = 0
    rw [mtGet, modPass_value_none fs.mtime f hmt fs.goFiles _, hd1]
    rfl

/-- Claim C8: a tracked file whose mtime read this cycle does not exceed the
tracked value from the previous cycle triggers no Committer invocation this
cycle. -/
theorem c8_unchanged_no_commit (fs : CycleFS) (d : Mtimes) (f : String)
    (m : Nat) (hhas : mtHas d f = true) (hmt : fs.mtime f = some m)
    (hle : m ≤ mtGet d f) :
    Event.commitCall f ∉ (pollCycle fs d).2 := by
  have hd1 : (newFilePass fs.goFiles d).1 f = d f := by
    rw [newFilePass_apply fs.goFiles d f, if_neg]
    intro hand
    rw [hand.1] at hhas
    cases hhas
  have hd1get : mtGet (newFilePass fs.goFiles d).1 f = mtGet d f := by
    rw [mtGet, hd1]; rfl
  intro hmem
  rcases List.mem_append.mp hmem with hb | hb
  · rcases newFilePass_events_discovered fs.goFiles d _ hb with ⟨g, hg⟩
    cases hg
  · exact modPass_no_commit fs.mtime f m hmt fs.goFiles _
      (Or.inr (by rw [hd1get]; exact hle)) hb

/-- Claim C9: one poll cycle preserves the tracked-map invariant: every
tracked key stays tracked with a value that never decreases, and every
scanned path is tracked afterwards (entries are only ever added). -/
theorem c9_tracked_invariant (fs : CycleFS) (d : Mtimes) :
    (∀ f, mtHas d f = true → mtHas (pollCycle fs d).1 f = true) ∧
    (∀ f, mtHas d f = true → mtGet d f ≤ mtGet (pollCycle fs d).1 f) ∧
    (∀ f, f ∈ fs.goFiles → mtHas (pollCycle fs d).1 f = true) := by
  refine ⟨?_, ?_, ?_⟩
  · intro f hhas
    have hd1 : (newFilePass fs.goFiles d).1 f = d f := by
      rw [newFilePass_apply fs.goFiles d f, if_neg]
      intro hand
      rw [hand.1] at hhas
      cases hhas
    have : mtHas (newFilePass fs.goFiles d).1 f = true := by
      rw [mtHas, hd1]; exact hhas
    exact modPass_has_mono fs.mtime fs.goFiles _ f this
  · intro f hhas
    have hd1 : (newFilePass fs.goFiles d).1 f = d f := by
      rw [newFilePass_apply fs.goFiles d f, if_neg]
      intro hand
      rw [hand.1] at hhas
      cases hhas
    have hstep : mtGet d f = mtGet (newFilePass fs.goFiles d).1 f := by
      rw [mtGet, mtGet, hd1]
    rw [hstep]
    exact modPass_get_mono fs.mtime fs.goFiles _ f
  · intro f hmem
    have hd1 : mtHas (newFilePass fs.goFiles d).1 f = true := by
      rw [mtHas, newFilePass_apply fs.goFiles d f]
      by_cases hnew : mtHas d f = false
      · rw [if_pos ⟨hnew, hmem⟩]; rfl
      · rw [if_neg (fun hand => hnew hand.1)]
        simp only [Bool.not_eq_false] at hnew
        exact hnew
    exact modPass_has_mono fs.mtime fs.goFiles _ f hd1

/-- A one-file snapshot with a readable mtime, for instantiating the watch
loop claims. -/
def fsA : CycleFS := ⟨["a.go"], fun s => if s = "a.go" then some 5 else none⟩

/-- An empty tracked map. -/
def mtEmpty : Mtimes := fun _ => none

/-- Snapshot and tracked map that already agree on `b.go` at mtime 3. -/
def fsB : CycleFS := ⟨["b.go"], fun s => if s = "b.go" then some 3 else none⟩

/-- Tracked map holding `b.go` at 3. -/
def mtB : Mtimes := fun s => if s = "b.go" then some 3 else none

theorem c6_witness :
    Event.discovered "a.go" ∈ (pollCycle fsA mtEmpty).2 ∧
    Event.commitCall "a.go" ∉ (pollCycle fsA mtEmpty).2 ∧
    mtGet (pollCycle fsA mtEmpty).1 "a.go" = 5 := by
  have h := c6_new_file_discovery fsA mtEmpty "a.go" (by simp [fsA]) rfl
  exact ⟨h.1, h.2.1, h.2.2.1 5 rfl⟩

theorem c8_witness :
    Event.commitCall "b.go" ∉ (pollCycle fsB mtB).2 :=
  c8_unchanged_no_commit fsB mtB "b.go" 3 rfl rfl (by decide)

theorem c9_witness :
    mtHas (pollCycle fsB mtB).1 "b.go" = true ∧
    mtGet mtB "b.go" ≤ mtGet (pollCycle fsB mtB).1 "b.go" := by
  have h := c9_tracked_invariant fsB mtB
  exact ⟨h.1 "b.go" rfl, h.2.1 "b.go" rfl⟩

/-! ### The CLI entry point -/

/-- Environment of one `main` invocation: the optional positional argument
and the filesystem facts `main` consults.  `abspath`, `isfile` and `dirname`
model the `os.path` functions of those names; `hasGitDir p` models
`os.path.exists(os.path.join(p, ".git"))`; `tree p` is the file forest under
`p` fed to the scanner; `interrupted` tells whether the operator eventually
interrupts the watch loop. -/
structure MainEnv where
  argv1 : Option String
  abspath : String → String
  isfile : String → Bool
  dirname : String → String
  hasGitDir : String → Bool
  tree : String → List (List String)
  interrupted : Bool

/-- Path resolution of `main` (src/auto_commit.py lines 129-136): default to
the current directory; a file argument is replaced by its directory. -/
def resolveRepoPath (env : MainEnv) : String :=
  match env.argv1 with
  | none => env.abspath "."
  | some a =>
    if env.isfile (env.abspath a) then env.dirname (env.abspath a)
    else env.abspath a

/-- How a `main` invocation ends. -/
inductive MainOutcome where
  | exited (code : Nat)
  | watchingForever
deriving DecidableEq

/-- Termination behaviour of `main` (src/auto_commit.py lines 127-195):
exit 1 when `.git` is missing under the resolved path; exit 1 when the scan
finds no Go files; otherwise the watch loop runs until a
`KeyboardInterrupt` makes it exit 0, and runs forever when never
interrupted.  Nothing inside the loop body exits the process: `OSError`
on an mtime read is swallowed and `commit_changes` catches every
`Exception`. -/
def main_outcome (env : MainEnv) : MainOutcome :=
  if !env.hasGitDir (resolveRepoPath env) then .exited 1
  else if (get_go_files (env.tree (resolveRepoPath env))).isEmpty then .exited 1
  else if env.interrupted then .exited 0
  else .watchingForever

/-- Claim C2: `main` exits with code 1 exactly when the resolved path has no
`.git` beneath it or the scan finds no `.go` files under it, and exits with
code 0 when the startup checks pass and the operator interrupts the loop. -/
theorem c2_exit_codes (env : MainEnv) :
    (main_outcome env = .exited 1 ↔
      (env.hasGitDir (resolveRepoPath env) = false ∨
        get_go_files (env.tree (resolveRepoPath env)) = [])) ∧
    (env.hasGitDir (resolveRepoPath env) = true →
      get_go_files (env.tree (resolveRepoPath env)) ≠ [] →
      env.interrupted = true →
      main_outcome env = .exited 0) := by
  constructor
  · rw [main_outcome]
    by_cases hgit : env.hasGitDir (resolveRepoPath env) = true
    · rw [hgit]
      by_cases hfiles : get_go_files (env.tree (resolveRepoPath env)) = []
      · simp [hfiles]
      · simp [List.isEmpty_iff, hfiles, hgit]
        by_cases hint : env.interrupted = true <;> simp [hint]
    · simp only [Bool.not_eq_true] at hgit
      simp [hgit]
  · intro hgit hfiles hint
    rw [main_outcome, hgit]
    simp [List.isEmpty_iff, hfiles, hint]

/-- Environment whose startup checks pass and whose loop is interrupted. -/
def envInterrupted : MainEnv :=
  ⟨none, id, fun _ => false, id, fun _ => true, fun _ => [["a.go"]], true⟩

theorem c2_witness : main_outcome envInterrupted = .exited 0 :=
  (c2_exit_codes envInterrupted).2 rfl (by decide) rfl

end AutoCommit
